import Mathlib

/- Shallow embedding of the certificate-pinning patch engine of apk-mitm
   (file src/tasks/create-netsec-config.ts of the repository).

   Text is modelled as List Char.  The JavaScript global regular-expression
   replace used by processSmaliFile, namely

     new RegExp((\x5c.method public (?:final )?SIG)\n([^]+?)\n(\x5c.end method), g)

   is modelled by an explicit left-to-right scan with the same semantics:
   at each position the engine first tries the header with the optional
   final modifier, then without it; the lazy body group captures the least
   nonempty stretch of characters that is followed by a newline and the
   literal terminator .end method; matching resumes after the match. -/

set_option maxRecDepth 200000

namespace ApkMitm

/- String constants, source lines 29 to 56. -/

def sInterfaceLine : String := ".implements Ljavax/net/ssl/X509TrustManager;"

def sSigClient : String := "checkClientTrusted([Ljava/security/cert/X509Certificate;Ljava/lang/String;)V"

def sSigServer : String := "checkServerTrusted([Ljava/security/cert/X509Certificate;Ljava/lang/String;)V"

def sSigIssuers : String := "getAcceptedIssuers()[Ljava/security/cert/X509Certificate;"

def sMethodPublic : String := ".method public "

def sMethodPublicFinal : String := ".method public final "

def sEndLine : String := ".end method"

def sIndent : String := "    "

def sCommentSp : String := "# "

def sMarkerInserted : String := "# inserted by apk-mitm to disable certificate pinning"

def sMarkerCommented : String := "# commented out by apk-mitm to disable old method body"

def sLocals0 : String := ".locals 0"

def sReturnVoid : String := "return-void"

def sLocals1 : String := ".locals 1"

def sConst4 : String := "const/4 v0, 0x0"

def sNewArray : String := "new-array v0, v0, [Ljava/security/cert/X509Certificate;"

def sReturnObject : String := "return-object v0"

def sGetAccepted : String := "getAcceptedIssuers"

def nlChar : Char := '\n'

/-- Source line 29: the INTERFACE_LINE constant. -/
def INTERFACE_LINE : List Char := sInterfaceLine.toList

/-- First entry of METHOD_SIGNATURES (source line 33). -/
def SIG_CLIENT : List Char := sSigClient.toList

/-- Second entry of METHOD_SIGNATURES (source line 34). -/
def SIG_SERVER : List Char := sSigServer.toList

/-- Third entry of METHOD_SIGNATURES (source line 35). -/
def SIG_ISSUERS : List Char := sSigIssuers.toList

/-- Source lines 32 to 36: the METHOD_SIGNATURES table. -/
def METHOD_SIGNATURES : List (List Char) := [SIG_CLIENT, SIG_SERVER, SIG_ISSUERS]

/-- Source line 48: code inserted into checkClientTrusted and checkServerTrusted. -/
def RETURN_VOID_FIX : List (List Char) := [sLocals0.toList, sReturnVoid.toList]

/-- Source lines 51 to 56: code inserted into getAcceptedIssuers. -/
def RETURN_EMPTY_ARRAY_FIX : List (List Char) :=
  [sLocals1.toList, sConst4.toList, sNewArray.toList, sReturnObject.toList]

/-- The literal captured by the third group of each pattern (source line 42). -/
def END_LINE : List Char := sEndLine.toList

/-- The newline plus terminator the lazy body group must run up to. -/
def TERM : List Char := nlChar :: END_LINE

/-- Header of a target method without the optional final modifier. -/
def headerPlain (sig : List Char) : List Char := sMethodPublic.toList ++ sig

/-- Header of a target method with the optional final modifier. -/
def headerFinal (sig : List Char) : List Char := sMethodPublicFinal.toList ++ sig

/-- Header of a target method, the Boolean selecting the optional final modifier. -/
def mkHeader (sig : List Char) (useFinal : Bool) : List Char :=
  if useFinal then headerFinal sig else headerPlain sig

/- Generic text helpers mirroring the JavaScript string operations. -/

/-- Boolean test that the first list is a prefix of the second. -/
def startsWith : List Char → List Char → Bool
  | [], _ => true
  | _ :: _, [] => false
  | p :: ps, c :: cs => p == c && startsWith ps cs

/-- Split a text at the first occurrence of pat: returns the part before the
occurrence and the part after it, or none when pat does not occur.  This is
the search step of a JavaScript regular expression over a literal pattern. -/
def splitFirst (pat : List Char) : List Char → Option (List Char × List Char)
  | [] => if startsWith pat [] then some ([], []) else none
  | c :: rest =>
    if startsWith pat (c :: rest) then some ([], (c :: rest).drop pat.length)
    else (splitFirst pat rest).map (fun p => (c :: p.1, p.2))

/-- JavaScript String.prototype.includes over our text model. -/
def containsSub (pat t : List Char) : Bool := (splitFirst pat t).isSome

/-- JavaScript split over a single newline character (source line 111). -/
def splitNL : List Char → List (List Char)
  | [] => [[]]
  | c :: rest =>
    if c == nlChar then [] :: splitNL rest
    else
      match splitNL rest with
      | [] => [[c]]
      | l :: ls => (c :: l) :: ls

/-- JavaScript Array.prototype.join with a newline separator (source line 133). -/
def joinNL : List (List Char) → List Char
  | [] => []
  | [l] => l
  | l :: ls => l ++ nlChar :: joinNL ls

/-- line.replace of the anchored four-space pattern (source line 112): strip one
level of indentation when present. -/
def stripIndent (l : List Char) : List Char :=
  if startsWith sIndent.toList l then l.drop 4 else l

/-- The character class trimmed by JavaScript String.prototype.trimEnd. -/
def jsWhitespaceChar (c : Char) : Bool :=
  c == ' ' || c == '\t' || c == '\n' || c == '\r' || c == '\x0b' || c == '\x0c' ||
  c == ' ' || c == ' ' || c == ' ' || c == ' ' || c == ' ' ||
  c == ' ' || c == ' ' || c == ' ' || c == ' ' || c == ' ' ||
  c == ' ' || c == ' ' || c == ' ' || c == ' ' || c == ' ' ||
  c == ' ' || c == ' ' || c == '　' || c == '﻿'

/-- JavaScript String.prototype.trimEnd (source line 132). -/
def jsTrimEnd (l : List Char) : List Char :=
  (l.reverse.dropWhile jsWhitespaceChar).reverse

/- The pattern of source lines 39 to 45, decomposed. -/

/-- Match the first group plus its newline at the start of t: the header with
the optional final modifier (tried first, as the greedy optional group does).
Returns the captured opening line and the rest of the text. -/
def headerAt (sig t : List Char) : Option (List Char × List Char) :=
  if startsWith (headerFinal sig ++ [nlChar]) t then
    some (headerFinal sig, t.drop ((headerFinal sig).length + 1))
  else if startsWith (headerPlain sig ++ [nlChar]) t then
    some (headerPlain sig, t.drop ((headerPlain sig).length + 1))
  else none

/-- After the header and its newline, the lazy nonempty body group runs up to
the first newline-plus-terminator: one leading character, then the text up to
the first occurrence of TERM. -/
def matchTail (hdr : List Char) : List Char → Option (List Char × List Char × List Char)
  | [] => none
  | c :: rest2 =>
    match splitFirst TERM rest2 with
    | none => none
    | some (a, b) => some (hdr, c :: a, b)

/-- Match the whole pattern at the start of t: header, lazy nonempty body,
newline and terminator.  Returns (openingLine, body, rest after the match). -/
def matchAt (sig t : List Char) : Option (List Char × List Char × List Char) :=
  match headerAt sig t with
  | none => none
  | some (hdr, rest) => matchTail hdr rest

/-- Scan left to right for the first position where the pattern matches.
Returns (text before the match, openingLine, body, text after the match). -/
def findMatch (sig : List Char) :
    List Char → Option (List Char × List Char × List Char × List Char)
  | [] =>
    (matchAt sig []).map (fun m => ([], m.1, m.2.1, m.2.2))
  | c :: rest =>
    match matchAt sig (c :: rest) with
    | some (h, b, r) => some ([], h, b, r)
    | none => (findMatch sig rest).map (fun q => (c :: q.1, q.2.1, q.2.2.1, q.2.2.2))

/-- Source line 114: which fix is inserted, decided by openingLine.includes. -/
def chooseFix (openingLine : List Char) : List (List Char) :=
  if containsSub sGetAccepted.toList openingLine then RETURN_EMPTY_ARRAY_FIX
  else RETURN_VOID_FIX

/-- Source lines 118 to 125: the patchedBodyLines array built by the replacer. -/
def patchedBodyLines (openingLine body : List Char) : List (List Char) :=
  [sMarkerInserted.toList]
  ++ chooseFix openingLine
  ++ [[]]
  ++ [sMarkerCommented.toList, sCommentSp.toList]
  ++ ((splitNL body).map stripIndent).map (fun line => sCommentSp.toList ++ line)

/-- Source lines 127 to 133: the string returned by the replacer function. -/
def renderPatch (openingLine body closingLine : List Char) : List Char :=
  joinNL ((([openingLine]
    ++ (patchedBodyLines openingLine body).map (fun line => sIndent.toList ++ line)
    ++ [closingLine]).map jsTrimEnd))

/-- Fuelled global replace: the g-flagged replace of source line 107 applied to
one pattern, resuming after each match.  The fuel only serves termination; any
fuel of at least the text length gives the replace semantics. -/
def replaceSigFuel (sig : List Char) : Nat → List Char → List Char
  | 0, t => t
  | fuel + 1, t =>
    match findMatch sig t with
    | none => t
    | some (p, h, b, r) => p ++ renderPatch h b END_LINE ++ replaceSigFuel sig fuel r

/-- patchedContent.replace(pattern, replacer) for the pattern of one signature. -/
def replaceSig (sig t : List Char) : List Char := replaceSigFuel sig t.length t

/-- Source lines 104 to 136: the loop over METHOD_PATTERNS. -/
def patchCore (t : List Char) : List Char :=
  METHOD_SIGNATURES.foldl (fun acc sig => replaceSig sig acc) t

/-- Source line 101: originalContent.replace of the global CRLF pattern by LF. -/
def crlfToLf : List Char → List Char
  | [] => []
  | [c] => [c]
  | c :: d :: rest =>
    if c == '\r' && d == '\n' then '\n' :: crlfToLf rest
    else c :: crlfToLf (d :: rest)

/-- Source line 141: patchedContent.replace of the global LF pattern by CRLF. -/
def lfToCrlf : List Char → List Char
  | [] => []
  | c :: rest =>
    if c == '\n' then '\r' :: '\n' :: lfToCrlf rest
    else c :: lfToCrlf rest

/-- Source line 97: the candidate filter. -/
def isCandidate (t : List Char) : Bool := containsSub INTERFACE_LINE t

/-- Source lines 99 to 102: platform-dependent normalization.  The
os.type() test is modelled by the Boolean isWindowsNT parameter. -/
def normalizeContent (isWindowsNT : Bool) (t : List Char) : List Char :=
  if isWindowsNT then crlfToLf t else t

/-- The per-file outcome of processSmaliFile: the returned Boolean and the
content the file holds afterwards (the original content when no write
happens, the written patched content otherwise). -/
structure PatchResult where
  changed : Bool
  content : List Char

/-- Source lines 93 to 149: processSmaliFile as a pure text transform.  The
file is skipped when the interface line is missing; otherwise the content is
normalized, the three patterns are applied, and the result is compared with
the normalized content to decide the return value and the written text. -/
def processSmali (isWindowsNT : Bool) (originalContent : List Char) : PatchResult :=
  if isCandidate originalContent = false then ⟨false, originalContent⟩
  else if normalizeContent isWindowsNT originalContent ≠
      patchCore (normalizeContent isWindowsNT originalContent) then
    ⟨true,
      if isWindowsNT then lfToCrlf (patchCore (normalizeContent isWindowsNT originalContent))
      else patchCore (normalizeContent isWindowsNT originalContent)⟩
  else ⟨false, originalContent⟩

/- Basic lemmas about the text helpers. -/

theorem startsWith_iff (p t : List Char) : startsWith p t = true ↔ ∃ r, t = p ++ r := by
  induction p generalizing t with
  | nil => simp [startsWith]
  | cons x ps ih =>
    cases t with
    | nil => simp [startsWith]
    | cons c cs =>
      simp only [startsWith, Bool.and_eq_true, beq_iff_eq, ih, List.cons_append,
        List.cons.injEq]
      constructor
      · rintro ⟨hx, r, hr⟩
        exact ⟨r, hx.symm, hr⟩
      · rintro ⟨r, hx, hr⟩
        exact ⟨hx.symm, r, hr⟩

theorem startsWith_append (p r : List Char) : startsWith p (p ++ r) = true :=
  (startsWith_iff p (p ++ r)).mpr ⟨r, rfl⟩

theorem startsWith_of_append (pat a x : List Char)
    (h : startsWith pat (a ++ x) = true) (hlen : pat.length ≤ a.length) :
    startsWith pat a = true := by
  obtain ⟨r, hr⟩ := (startsWith_iff _ _).mp h
  refine (startsWith_iff _ _).mpr ⟨a.drop pat.length, ?_⟩
  have htake : (a ++ x).take pat.length = a.take pat.length :=
    List.take_append_of_le_length hlen
  have hpat : (pat ++ r).take pat.length = pat := List.take_left pat r
  rw [hr, hpat] at htake
  conv_lhs => rw [← List.take_append_drop pat.length a]
  rw [← htake]

theorem splitFirst_cons_eq (pat : List Char) (c : Char) (rest : List Char) :
    splitFirst pat (c :: rest) =
      if startsWith pat (c :: rest) then some ([], (c :: rest).drop pat.length)
      else (splitFirst pat rest).map (fun p => (c :: p.1, p.2)) := rfl

theorem splitFirst_sound (pat : List Char) :
    ∀ t a b, splitFirst pat t = some (a, b) → t = a ++ pat ++ b := by
  intro t
  induction t with
  | nil =>
    intro a b h
    simp only [splitFirst] at h
    by_cases hsw : startsWith pat [] = true
    · have hpat : pat = [] := by
        cases pat with
        | nil => rfl
        | cons x xs => simp [startsWith] at hsw
      rw [if_pos hsw] at h
      injection h with h'
      injection h' with h1 h2
      subst h1
      subst h2
      simp [hpat]
    · rw [if_neg hsw] at h
      exact Option.noConfusion h
  | cons c rest ih =>
    intro a b h
    rw [splitFirst_cons_eq] at h
    by_cases hsw : startsWith pat (c :: rest) = true
    · rw [if_pos hsw] at h
      obtain ⟨r, hr⟩ := (startsWith_iff _ _).mp hsw
      rw [hr, List.drop_left] at h
      injection h with h'
      injection h' with h1 h2
      subst h1
      subst h2
      simpa using hr
    · rw [if_neg hsw, Option.map_eq_some'] at h
      obtain ⟨p, hsp, heq⟩ := h
      obtain ⟨a', b'⟩ := p
      rw [Prod.ext_iff] at heq
      obtain ⟨h1, h2⟩ := heq
      simp only at h1 h2
      rw [← h1, ← h2]
      simp [ih a' b' hsp]

theorem splitFirst_none (pat : List Char) :
    ∀ t, splitFirst pat t = none → ∀ a b, t ≠ a ++ pat ++ b := by
  intro t
  induction t with
  | nil =>
    intro h a b habs
    have ha : a = [] := by
      cases a with
      | nil => rfl
      | cons x xs => exact absurd habs (by simp)
    subst ha
    have hp : pat = [] := by
      cases pat with
      | nil => rfl
      | cons x xs => exact absurd habs (by simp)
    subst hp
    simp [splitFirst, startsWith] at h
  | cons c rest ih =>
    intro h a b habs
    rw [splitFirst_cons_eq] at h
    by_cases hsw : startsWith pat (c :: rest) = true
    · rw [if_pos hsw] at h
      exact Option.noConfusion h
    · rw [if_neg hsw, Option.map_eq_none'] at h
      cases a with
      | nil =>
        exact absurd ((startsWith_iff _ _).mpr ⟨b, by simpa using habs⟩) hsw
      | cons c' a' =>
        have h2 : rest = a' ++ pat ++ b := by
          have h3 : c :: rest = c' :: (a' ++ pat ++ b) := by simpa using habs
          injection h3 with _ h4
        exact ih h a' b h2

theorem containsSub_iff (pat t : List Char) :
    containsSub pat t = true ↔ ∃ a b, t = a ++ pat ++ b := by
  unfold containsSub
  cases h : splitFirst pat t with
  | none =>
    simp only [Option.isSome_none, Bool.false_eq_true, false_iff]
    rintro ⟨a, b, habs⟩
    exact splitFirst_none pat t h a b habs
  | some p =>
    simp only [Option.isSome_some, eq_self_iff_true, true_iff]
    exact ⟨p.1, p.2, splitFirst_sound pat t p.1 p.2 (by rw [h])⟩

theorem containsSub_eq_false_iff (pat t : List Char) :
    containsSub pat t = false ↔ ∀ a b, t ≠ a ++ pat ++ b := by
  constructor
  · intro h a b habs
    have h2 := (containsSub_iff pat t).mpr ⟨a, b, habs⟩
    rw [h] at h2
    simp at h2
  · intro h
    cases hc : containsSub pat t with
    | false => rfl
    | true =>
      obtain ⟨a, b, hab⟩ := (containsSub_iff pat t).mp hc
      exact absurd hab (h a b)

theorem containsSub_of_startsWith (pat t : List Char)
    (h : startsWith pat t = true) : containsSub pat t = true := by
  obtain ⟨r, hr⟩ := (startsWith_iff _ _).mp h
  exact (containsSub_iff _ _).mpr ⟨[], r, by simpa using hr⟩

theorem containsSub_cons_false (pat : List Char) (c : Char) (t : List Char)
    (h : containsSub pat (c :: t) = false) : containsSub pat t = false := by
  rw [containsSub_eq_false_iff] at h ⊢
  intro a b habs
  exact h (c :: a) b (by simp [habs])

/-- splitFirst finds the intended occurrence when no earlier one exists:
if pat does not occur inside a and cannot match while overlapping its own
intended occurrence, the split lands exactly at the boundary. -/
theorem splitFirst_first (pat : List Char) :
    ∀ a b, containsSub pat a = false →
    (∀ j, 0 < j → j < pat.length → startsWith (pat.drop j) (pat ++ b) = false) →
    splitFirst pat (a ++ pat ++ b) = some (a, b) := by
  intro a
  induction a with
  | nil =>
    intro b _ _
    simp only [List.nil_append]
    cases hpb : pat ++ b with
    | nil =>
      have hp : pat = [] := by cases pat <;> simp_all
      have hb : b = [] := by subst hp; simpa using hpb
      subst hp
      subst hb
      simp [splitFirst, startsWith]
    | cons y ys =>
      rw [splitFirst_cons_eq, ← hpb, if_pos (startsWith_append pat b),
        List.drop_left]
  | cons c a' ih =>
    intro b hno hbord
    have hsw : startsWith pat (c :: (a' ++ pat ++ b)) = false := by
      cases hsw2 : startsWith pat (c :: (a' ++ pat ++ b)) with
      | false => rfl
      | true =>
        exfalso
        by_cases hlen : pat.length ≤ (c :: a').length
        · have hpre : startsWith pat ((c :: a') ++ (pat ++ b)) = true := by
            simpa [List.append_assoc] using hsw2
          have h3 : startsWith pat (c :: a') = true :=
            startsWith_of_append pat (c :: a') (pat ++ b) hpre hlen
          have h4 := containsSub_of_startsWith pat (c :: a') h3
          rw [h4] at hno
          simp at hno
        · push_neg at hlen
          obtain ⟨r, hr⟩ := (startsWith_iff _ _).mp hsw2
          have h1 : (c :: (a' ++ pat ++ b)).drop (c :: a').length = pat ++ b := by
            have hsh : c :: (a' ++ pat ++ b) = (c :: a') ++ (pat ++ b) := by
              simp [List.append_assoc]
            rw [hsh, List.drop_left]
          have h2 : (pat ++ r).drop (c :: a').length =
              pat.drop (c :: a').length ++ r :=
            List.drop_append_of_le_length (Nat.le_of_lt hlen)
          rw [hr, h2] at h1
          have hsw3 : startsWith (pat.drop (c :: a').length) (pat ++ b) = true := by
            rw [← h1]
            exact startsWith_append _ _
          have h5 := hbord (c :: a').length (by simp) hlen
          rw [h5] at hsw3
          simp at hsw3
    have hshape : (c :: a') ++ pat ++ b = c :: (a' ++ pat ++ b) := by simp
    rw [hshape, splitFirst_cons_eq, if_neg (by rw [hsw]; exact Bool.false_ne_true),
      ih b (containsSub_cons_false pat c a' hno) hbord]
    rfl

/- Lemmas about the pattern matcher. -/

theorem TERM_border (j : Nat) (hj : 0 < j) (hlt : j < TERM.length) (b : List Char) :
    startsWith (TERM.drop j) (TERM ++ b) = false := by
  have h12 : TERM.length = 12 := rfl
  rw [h12] at hlt
  interval_cases j <;> rfl

theorem headerAt_final (sig rest : List Char) :
    headerAt sig (headerFinal sig ++ nlChar :: rest) = some (headerFinal sig, rest) := by
  have hsh : headerFinal sig ++ nlChar :: rest = (headerFinal sig ++ [nlChar]) ++ rest := by
    simp
  unfold headerAt
  rw [hsh, if_pos (startsWith_append _ _)]
  have hlen : (headerFinal sig).length + 1 = (headerFinal sig ++ [nlChar]).length := by
    simp
  rw [hlen, List.drop_left]

theorem headerAt_plain (sig : List Char) (hsig : sig ∈ METHOD_SIGNATURES)
    (rest : List Char) :
    headerAt sig (headerPlain sig ++ nlChar :: rest) = some (headerPlain sig, rest) := by
  have hne : startsWith (headerFinal sig ++ [nlChar])
      (headerPlain sig ++ nlChar :: rest) = false := by
    simp only [METHOD_SIGNATURES, List.mem_cons, List.not_mem_nil,
      or_false] at hsig
    rcases hsig with h | h | h <;> subst h <;> rfl
  have hsh : headerPlain sig ++ nlChar :: rest = (headerPlain sig ++ [nlChar]) ++ rest := by
    simp
  unfold headerAt
  rw [if_neg (by rw [hne]; exact Bool.false_ne_true), hsh,
    if_pos (startsWith_append _ _)]
  have hlen : (headerPlain sig).length + 1 = (headerPlain sig ++ [nlChar]).length := by
    simp
  rw [hlen, List.drop_left]

theorem headerAt_mk (sig : List Char) (hsig : sig ∈ METHOD_SIGNATURES)
    (f : Bool) (rest : List Char) :
    headerAt sig (mkHeader sig f ++ nlChar :: rest) = some (mkHeader sig f, rest) := by
  cases f with
  | false => exact headerAt_plain sig hsig rest
  | true => exact headerAt_final sig rest

theorem headerAt_sound (sig t hdr rest : List Char)
    (h : headerAt sig t = some (hdr, rest)) :
    t = hdr ++ nlChar :: rest ∧ (hdr = headerPlain sig ∨ hdr = headerFinal sig) := by
  unfold headerAt at h
  by_cases h1 : startsWith (headerFinal sig ++ [nlChar]) t = true
  · rw [if_pos h1] at h
    obtain ⟨r0, hr0⟩ := (startsWith_iff _ _).mp h1
    injection h with h'
    injection h' with ha hb
    subst ha
    have hlen : (headerFinal sig).length + 1 = (headerFinal sig ++ [nlChar]).length := by
      simp
    rw [hr0, hlen, List.drop_left] at hb
    subst hb
    refine ⟨by simpa using hr0, Or.inr rfl⟩
  · rw [if_neg h1] at h
    by_cases h2 : startsWith (headerPlain sig ++ [nlChar]) t = true
    · rw [if_pos h2] at h
      obtain ⟨r0, hr0⟩ := (startsWith_iff _ _).mp h2
      injection h with h'
      injection h' with ha hb
      subst ha
      have hlen : (headerPlain sig).length + 1 = (headerPlain sig ++ [nlChar]).length := by
        simp
      rw [hr0, hlen, List.drop_left] at hb
      subst hb
      refine ⟨by simpa using hr0, Or.inl rfl⟩
    · rw [if_neg h2] at h
      exact Option.noConfusion h

theorem matchTail_cons_eq (hdr : List Char) (c : Char) (rest2 a b : List Char)
    (h : splitFirst TERM rest2 = some (a, b)) :
    matchTail hdr (c :: rest2) = some (hdr, c :: a, b) := by
  simp only [matchTail]
  rw [h]

theorem matchAt_of_headerAt (sig t hdr rest : List Char)
    (h : headerAt sig t = some (hdr, rest)) :
    matchAt sig t = matchTail hdr rest := by
  unfold matchAt
  rw [h]

theorem matchAt_of_headerAt_none (sig t : List Char)
    (h : headerAt sig t = none) : matchAt sig t = none := by
  unfold matchAt
  rw [h]

theorem startsWith_headerFinal_nil (sig : List Char) :
    startsWith (headerFinal sig ++ [nlChar]) [] = false := by
  cases hh : headerFinal sig ++ [nlChar] with
  | nil => simp at hh
  | cons x xs => rfl

theorem startsWith_headerPlain_nil (sig : List Char) :
    startsWith (headerPlain sig ++ [nlChar]) [] = false := by
  cases hh : headerPlain sig ++ [nlChar] with
  | nil => simp at hh
  | cons x xs => rfl

theorem headerAt_nil (sig : List Char) : headerAt sig [] = none := by
  unfold headerAt
  rw [if_neg (by rw [startsWith_headerFinal_nil]; exact Bool.false_ne_true),
    if_neg (by rw [startsWith_headerPlain_nil]; exact Bool.false_ne_true)]

theorem matchAt_nil (sig : List Char) : matchAt sig [] = none :=
  matchAt_of_headerAt_none sig [] (headerAt_nil sig)

theorem matchAt_block (sig : List Char) (hsig : sig ∈ METHOD_SIGNATURES) (f : Bool)
    (b post : List Char) (hb : b ≠ []) (hterm : containsSub TERM b = false) :
    matchAt sig (mkHeader sig f ++ nlChar :: (b ++ TERM ++ post)) =
      some (mkHeader sig f, b, post) := by
  rw [matchAt_of_headerAt sig _ _ _ (headerAt_mk sig hsig f (b ++ TERM ++ post))]
  cases b with
  | nil => exact absurd rfl hb
  | cons c b' =>
    have hsh : (c :: b') ++ TERM ++ post = c :: (b' ++ TERM ++ post) := by simp
    rw [hsh]
    exact matchTail_cons_eq _ c _ b' post
      (splitFirst_first TERM b' post (containsSub_cons_false TERM c b' hterm)
        (fun j hj hlt => TERM_border j hj hlt post))

theorem matchAt_sound (sig t h b r : List Char)
    (hm : matchAt sig t = some (h, b, r)) :
    t = h ++ nlChar :: (b ++ TERM ++ r) ∧
      (h = headerPlain sig ∨ h = headerFinal sig) := by
  unfold matchAt at hm
  cases hh : headerAt sig t with
  | none => rw [hh] at hm; exact Option.noConfusion hm
  | some p =>
    obtain ⟨hdr, rest⟩ := p
    rw [hh] at hm
    obtain ⟨ht, hhd⟩ := headerAt_sound sig t hdr rest hh
    cases rest with
    | nil => simp [matchTail] at hm
    | cons c rest2 =>
      simp only [matchTail] at hm
      cases hsp : splitFirst TERM rest2 with
      | none => rw [hsp] at hm; exact Option.noConfusion hm
      | some q =>
        obtain ⟨a, bb⟩ := q
        rw [hsp] at hm
        injection hm with hm'
        injection hm' with h1 hm''
        injection hm'' with h2 h3
        subst h1
        subst h2
        subst h3
        have hrest := splitFirst_sound TERM rest2 a bb hsp
        subst hrest
        constructor
        · rw [ht]
          simp
        · exact hhd

theorem findMatch_nil (sig : List Char) : findMatch sig [] = none := by
  simp only [findMatch, matchAt_nil, Option.map_none']

theorem findMatch_cons_some (sig : List Char) (c : Char) (rest h b r : List Char)
    (hm : matchAt sig (c :: rest) = some (h, b, r)) :
    findMatch sig (c :: rest) = some ([], h, b, r) := by
  simp only [findMatch]
  rw [hm]

theorem findMatch_cons_none (sig : List Char) (c : Char) (rest : List Char)
    (hm : matchAt sig (c :: rest) = none) :
    findMatch sig (c :: rest) =
      (findMatch sig rest).map (fun q => (c :: q.1, q.2.1, q.2.2.1, q.2.2.2)) := by
  simp only [findMatch]
  rw [hm]

theorem findMatch_sound (sig : List Char) :
    ∀ t p h b r, findMatch sig t = some (p, h, b, r) →
    t = p ++ h ++ nlChar :: (b ++ TERM ++ r) ∧
      (h = headerPlain sig ∨ h = headerFinal sig) := by
  intro t
  induction t with
  | nil =>
    intro p h b r hf
    rw [findMatch_nil] at hf
    exact Option.noConfusion hf
  | cons c rest ih =>
    intro p h b r hf
    cases hm : matchAt sig (c :: rest) with
    | some m =>
      obtain ⟨h0, b0, r0⟩ := m
      rw [findMatch_cons_some sig c rest h0 b0 r0 hm] at hf
      injection hf with hf'
      injection hf' with h1 hf''
      injection hf'' with h2 hf3
      injection hf3 with h3 h4
      rw [← h1, ← h2, ← h3, ← h4]
      obtain ⟨ht, hhd⟩ := matchAt_sound sig _ h0 b0 r0 hm
      exact ⟨by simpa using ht, hhd⟩
    | none =>
      rw [findMatch_cons_none sig c rest hm, Option.map_eq_some'] at hf
      obtain ⟨q, hq, heq⟩ := hf
      obtain ⟨p0, h0, b0, r0⟩ := q
      simp only at heq
      injection heq with h1 heq'
      injection heq' with h2 heq''
      injection heq'' with h3 h4
      obtain ⟨ht, hhd⟩ := ih p0 h0 b0 r0 hq
      constructor
      · rw [← h1, ← h2, ← h3, ← h4, ht]
        simp
      · rw [← h2]
        exact hhd

/-- No match of the pattern for sig starts inside x, in the text x followed
by y.  This is the per-position condition used for prefix skipping. -/
def noMatchStartIn (sig : List Char) : List Char → List Char → Bool
  | [], _ => true
  | c :: x, y => (matchAt sig (c :: (x ++ y))).isNone && noMatchStartIn sig x y

/-- No match of the pattern for sig starts anywhere inside t. -/
def noMatchIn (sig t : List Char) : Bool := noMatchStartIn sig t []

theorem findMatch_append (sig : List Char) :
    ∀ x y, noMatchStartIn sig x y = true →
    findMatch sig (x ++ y) =
      (findMatch sig y).map (fun q => (x ++ q.1, q.2.1, q.2.2.1, q.2.2.2)) := by
  intro x
  induction x with
  | nil =>
    intro y _
    simp only [List.nil_append]
    cases findMatch sig y with
    | none => rfl
    | some q => rfl
  | cons c x' ih =>
    intro y h
    simp only [noMatchStartIn, Bool.and_eq_true, Option.isNone_iff_eq_none] at h
    obtain ⟨hm, hrec⟩ := h
    have hsh : (c :: x') ++ y = c :: (x' ++ y) := by simp
    rw [hsh, findMatch_cons_none sig c (x' ++ y) hm, ih y hrec]
    cases findMatch sig y with
    | none => rfl
    | some q => rfl

theorem findMatch_none_of_noMatchIn (sig t : List Char)
    (h : noMatchIn sig t = true) : findMatch sig t = none := by
  have h2 := findMatch_append sig t [] h
  rw [List.append_nil, findMatch_nil] at h2
  simpa using h2

/- The global-replace semantics of replaceSig. -/

theorem findMatch_rest_lt (sig t p h b r : List Char)
    (hf : findMatch sig t = some (p, h, b, r)) : r.length < t.length := by
  obtain ⟨ht, _⟩ := findMatch_sound sig t p h b r hf
  have hT : TERM.length = 12 := rfl
  rw [ht]
  simp only [List.length_append, List.length_cons, hT]
  omega

theorem replaceSigFuel_congr (sig : List Char) :
    ∀ n m t, t.length ≤ n → t.length ≤ m →
    replaceSigFuel sig n t = replaceSigFuel sig m t := by
  intro n
  induction n with
  | zero =>
    intro m t hn _
    have ht : t = [] := List.length_eq_zero.mp (Nat.le_zero.mp hn)
    subst ht
    cases m with
    | zero => rfl
    | succ m' => simp only [replaceSigFuel, findMatch_nil]
  | succ n' ih =>
    intro m t hn hm
    cases m with
    | zero =>
      have ht : t = [] := List.length_eq_zero.mp (Nat.le_zero.mp hm)
      subst ht
      simp only [replaceSigFuel, findMatch_nil]
    | succ m' =>
      simp only [replaceSigFuel]
      cases hf : findMatch sig t with
      | none => rfl
      | some q =>
        obtain ⟨p, h, b, r⟩ := q
        have hlt := findMatch_rest_lt sig t p h b r hf
        show p ++ renderPatch h b END_LINE ++ replaceSigFuel sig n' r =
          p ++ renderPatch h b END_LINE ++ replaceSigFuel sig m' r
        rw [ih m' r (by omega) (by omega)]

theorem replaceSig_eq_none (sig t : List Char) (h : findMatch sig t = none) :
    replaceSig sig t = t := by
  unfold replaceSig
  cases hl : t.length with
  | zero => rfl
  | succ n =>
    simp only [replaceSigFuel]
    rw [h]

theorem replaceSig_eq_some (sig t p h b r : List Char)
    (hf : findMatch sig t = some (p, h, b, r)) :
    replaceSig sig t = p ++ renderPatch h b END_LINE ++ replaceSig sig r := by
  unfold replaceSig
  cases hl : t.length with
  | zero =>
    have ht : t = [] := List.length_eq_zero.mp hl
    subst ht
    rw [findMatch_nil] at hf
    exact Option.noConfusion hf
  | succ n =>
    simp only [replaceSigFuel]
    rw [hf]
    show p ++ renderPatch h b END_LINE ++ replaceSigFuel sig n r = _
    have hlt := findMatch_rest_lt sig t p h b r hf
    rw [replaceSigFuel_congr sig n r.length r (by omega) (Nat.le_refl _)]

theorem findMatch_of_matchAt (sig t h b r : List Char)
    (hm : matchAt sig t = some (h, b, r)) :
    findMatch sig t = some ([], h, b, r) := by
  cases t with
  | nil => rw [matchAt_nil] at hm; exact Option.noConfusion hm
  | cons c rest => exact findMatch_cons_some sig c rest h b r hm

/-- The whole declaration of one target method as it stands in a file:
header line, newline, body, newline and terminator line. -/
def Block (sig : List Char) (f : Bool) (b : List Char) : List Char :=
  mkHeader sig f ++ nlChar :: (b ++ TERM)

/-- The rewritten block the engine produces for that method. -/
def PBlock (sig : List Char) (f : Bool) (b : List Char) : List Char :=
  renderPatch (mkHeader sig f) b END_LINE

theorem findMatch_block (sig : List Char) (hsig : sig ∈ METHOD_SIGNATURES) (f : Bool)
    (pre b post : List Char) (hb : b ≠ []) (hterm : containsSub TERM b = false)
    (hpre : noMatchStartIn sig pre (Block sig f b ++ post) = true) :
    findMatch sig (pre ++ (Block sig f b ++ post)) =
      some (pre, mkHeader sig f, b, post) := by
  rw [findMatch_append sig pre _ hpre]
  have hsh : Block sig f b ++ post =
      mkHeader sig f ++ nlChar :: (b ++ TERM ++ post) := by
    simp [Block]
  rw [hsh, findMatch_of_matchAt sig _ _ _ _ (matchAt_block sig hsig f b post hb hterm)]
  simp

theorem replaceSig_block (sig : List Char) (hsig : sig ∈ METHOD_SIGNATURES) (f : Bool)
    (pre b post : List Char) (hb : b ≠ []) (hterm : containsSub TERM b = false)
    (hpre : noMatchStartIn sig pre (Block sig f b ++ post) = true)
    (hpost : noMatchIn sig post = true) :
    replaceSig sig (pre ++ (Block sig f b ++ post)) =
      pre ++ (PBlock sig f b ++ post) := by
  rw [replaceSig_eq_some sig _ pre (mkHeader sig f) b post
      (findMatch_block sig hsig f pre b post hb hterm hpre),
    replaceSig_eq_none sig post (findMatch_none_of_noMatchIn sig post hpost)]
  simp [PBlock]

/- processSmali facts. -/

theorem patchCore_eq (t : List Char) :
    patchCore t =
      replaceSig SIG_ISSUERS (replaceSig SIG_SERVER (replaceSig SIG_CLIENT t)) := rfl

theorem processSmali_unchanged_eq (w : Bool) (t : List Char)
    (h : patchCore (normalizeContent w t) = normalizeContent w t) :
    processSmali w t = ⟨false, t⟩ := by
  unfold processSmali
  by_cases hc : isCandidate t = false
  · rw [if_pos hc]
  · rw [if_neg hc, if_neg (by rw [h]; exact fun hne => hne rfl)]

theorem processSmali_content_of_unchanged (w : Bool) (c : List Char)
    (h : (processSmali w c).changed = false) :
    (processSmali w c).content = c := by
  unfold processSmali at h ⊢
  by_cases hc : isCandidate c = false
  · rw [if_pos hc]
  · rw [if_neg hc] at h ⊢
    by_cases hne : normalizeContent w c ≠ patchCore (normalizeContent w c)
    · rw [if_pos hne] at h
      simp at h
    · rw [if_neg hne]

theorem findMatch_none_of_no_term (sig t : List Char)
    (h : ∀ u v, t ≠ u ++ TERM ++ v) : findMatch sig t = none := by
  cases hf : findMatch sig t with
  | none => rfl
  | some q =>
    obtain ⟨p, h0, b, r⟩ := q
    obtain ⟨ht, _⟩ := findMatch_sound sig t p h0 b r hf
    exact absurd (by rw [ht]; simp) (h (p ++ h0 ++ nlChar :: b) r)

theorem patchCore_of_no_term (t : List Char) (h : ∀ u v, t ≠ u ++ TERM ++ v) :
    patchCore t = t := by
  rw [patchCore_eq,
    replaceSig_eq_none SIG_CLIENT t (findMatch_none_of_no_term SIG_CLIENT t h),
    replaceSig_eq_none SIG_SERVER t (findMatch_none_of_no_term SIG_SERVER t h),
    replaceSig_eq_none SIG_ISSUERS t (findMatch_none_of_no_term SIG_ISSUERS t h)]

theorem findMatch_none_of_no_sig (sig t : List Char)
    (h : ∀ u v, t ≠ u ++ sig ++ v) : findMatch sig t = none := by
  cases hf : findMatch sig t with
  | none => rfl
  | some q =>
    obtain ⟨p, h0, b, r⟩ := q
    obtain ⟨ht, hhd⟩ := findMatch_sound sig t p h0 b r hf
    exfalso
    cases hhd with
    | inl h1 =>
      exact h (p ++ sMethodPublic.toList) (nlChar :: (b ++ TERM ++ r))
        (by rw [ht, h1]; simp [headerPlain])
    | inr h1 =>
      exact h (p ++ sMethodPublicFinal.toList) (nlChar :: (b ++ TERM ++ r))
        (by rw [ht, h1]; simp [headerFinal])

theorem patchCore_id_of_no_sigs (t : List Char)
    (h : ∀ sig ∈ METHOD_SIGNATURES, ∀ u v, t ≠ u ++ sig ++ v) : patchCore t = t := by
  rw [patchCore_eq,
    replaceSig_eq_none SIG_CLIENT t
      (findMatch_none_of_no_sig _ t (h SIG_CLIENT (by simp [METHOD_SIGNATURES]))),
    replaceSig_eq_none SIG_SERVER t
      (findMatch_none_of_no_sig _ t (h SIG_SERVER (by simp [METHOD_SIGNATURES]))),
    replaceSig_eq_none SIG_ISSUERS t
      (findMatch_none_of_no_sig _ t (h SIG_ISSUERS (by simp [METHOD_SIGNATURES])))]

/- Fix selection facts. -/

theorem chooseFix_client (f : Bool) :
    chooseFix (mkHeader SIG_CLIENT f) = RETURN_VOID_FIX := by
  cases f with
  | false => unfold chooseFix; rw [if_neg (by decide)]
  | true => unfold chooseFix; rw [if_neg (by decide)]

theorem chooseFix_server (f : Bool) :
    chooseFix (mkHeader SIG_SERVER f) = RETURN_VOID_FIX := by
  cases f with
  | false => unfold chooseFix; rw [if_neg (by decide)]
  | true => unfold chooseFix; rw [if_neg (by decide)]

theorem chooseFix_issuers (f : Bool) :
    chooseFix (mkHeader SIG_ISSUERS f) = RETURN_EMPTY_ARRAY_FIX := by
  cases f with
  | false => unfold chooseFix; rw [if_pos (by decide)]
  | true => unfold chooseFix; rw [if_pos (by decide)]

/-- renderPatch with the fix lines given explicitly: used to state which fix
each signature receives. -/
def renderFixed (openingLine : List Char) (fixLines : List (List Char))
    (body : List Char) : List Char :=
  joinNL ((([openingLine]
    ++ ([sMarkerInserted.toList] ++ fixLines ++ [[]]
        ++ [sMarkerCommented.toList, sCommentSp.toList]
        ++ ((splitNL body).map stripIndent).map (fun line => sCommentSp.toList ++ line)).map
          (fun line => sIndent.toList ++ line)
    ++ [END_LINE]).map jsTrimEnd))

/- Concrete inputs used by counterexamples and witnesses. -/

def sC1 : String := ".implements Ljavax/net/ssl/X509TrustManager;\n.method public checkClientTrusted([Ljava/security/cert/X509Certificate;Ljava/lang/String;)V\n    .locals 0\n    sget-object v0, Lcom/app/Pin;->CHECK:Z\n    return-void\n.end method\n"

def sC4 : String := ".implements Ljavax/net/ssl/X509TrustManager;\r\n"

def sC9 : String := ".implements Ljavax/net/ssl/X509TrustManager;\n.method public checkClientTrusted([Ljava/security/cert/X509Certificate;Ljava/lang/String;)V\n    .locals 0"

def sC9u : String := ".implements Ljavax/net/ssl/X509TrustManager;\n"

def sC9v : String := "    .locals 0"

def sBody6 : String := "    .locals 2\n    invoke-pinning v0"

def sPost6 : String := "\nleftover"

def sPre10 : String := "before\n"

def sMid10 : String := "\nmid"

def sPost10 : String := "\ntail"

def sB10a : String := "    pinning-a v0"

def sB10b : String := "    pinning-b v1"

/-- C1: the claim `patch(patch(c).content).changed == false` fails on the code.
The pattern of source line 42 matches any nonempty method body, including an
already rewritten one, so re-running the patcher on patched output rewrites
the method again (re-commenting the once-commented body) and reports another
change.  Counterexample: a candidate class with one checkClientTrusted
method; after one patch run, a second run still reports changed = true. -/
theorem C1_counterexample :
    isCandidate sC1.toList = true ∧
    (processSmali false (processSmali false sC1.toList).content).changed = true := by
  constructor
  · decide
  · decide

/-- C1 amended: the patcher is idempotent exactly on the inputs it leaves
unchanged: whenever `patch(c).changed = false`, the content is returned
untouched and a second run again reports no change.  When a method was
actually rewritten, a second run matches the rewritten method again and
changes the file further (see the counterexample). -/
theorem C1_idempotent_on_unchanged (w : Bool) (c : List Char)
    (h : (processSmali w c).changed = false) :
    (processSmali w (processSmali w c).content).changed = false := by
  rw [processSmali_content_of_unchanged w c h]
  exact h

theorem C1_witness :
    (processSmali false (processSmali false INTERFACE_LINE).content).changed = false :=
  C1_idempotent_on_unchanged false INTERFACE_LINE (by decide)

/-- C2: the replacement body inserted into a matched method depends only on
the signature in the opening line: both validation signatures receive the
return-void fix (declare zero locals, return void), and getAcceptedIssuers
receives the empty-array fix (declare one local, build a zero-length
X509Certificate array, return it) — for every body and with or without the
final modifier. -/
theorem C2_replacement_bodies (useFinal : Bool) (body : List Char) :
    renderPatch (mkHeader SIG_CLIENT useFinal) body END_LINE =
      renderFixed (mkHeader SIG_CLIENT useFinal)
        [sLocals0.toList, sReturnVoid.toList] body ∧
    renderPatch (mkHeader SIG_SERVER useFinal) body END_LINE =
      renderFixed (mkHeader SIG_SERVER useFinal)
        [sLocals0.toList, sReturnVoid.toList] body ∧
    renderPatch (mkHeader SIG_ISSUERS useFinal) body END_LINE =
      renderFixed (mkHeader SIG_ISSUERS useFinal)
        [sLocals1.toList, sConst4.toList, sNewArray.toList, sReturnObject.toList]
        body := by
  refine ⟨?_, ?_, ?_⟩
  · unfold renderPatch renderFixed patchedBodyLines
    rw [chooseFix_client]
    rfl
  · unfold renderPatch renderFixed patchedBodyLines
    rw [chooseFix_server]
    rfl
  · unfold renderPatch renderFixed patchedBodyLines
    rw [chooseFix_issuers]
    rfl

/-- C4: the claim compares the reconstructed text with the pre-normalization
original; the code (source line 138) compares with the reassigned, already
normalized originalContent.  Counterexample: on a Windows host, a CRLF
candidate file with no target method reports changed = false even though the
reconstructed (LF) text differs from the pre-normalization original. -/
theorem C4_counterexample :
    (processSmali true sC4.toList).changed = false ∧
    patchCore (crlfToLf sC4.toList) ≠ sC4.toList := by
  constructor
  · decide
  · decide

/-- C4 amended: changed is false exactly when the reconstructed text equals
the line-ending-normalized original (which is the pre-normalization original
whenever no normalization occurred); and whenever changed is false the
returned content is the original, untouched. -/
theorem C4_changed_iff (w : Bool) (orig : List Char) :
    ((processSmali w orig).changed = false → (processSmali w orig).content = orig) ∧
    (isCandidate orig = true →
      ((processSmali w orig).changed = false ↔
        patchCore (normalizeContent w orig) = normalizeContent w orig)) := by
  constructor
  · exact processSmali_content_of_unchanged w orig
  · intro hc
    unfold processSmali
    rw [if_neg (by simp [hc])]
    by_cases hne : normalizeContent w orig ≠ patchCore (normalizeContent w orig)
    · rw [if_pos hne]
      constructor
      · intro h
        simp at h
      · intro h
        exact absurd h.symm hne
    · rw [if_neg hne]
      push_neg at hne
      constructor
      · intro _
        exact hne.symm
      · intro _
        rfl

theorem C4_witness :
    (processSmali true sC4.toList).content = sC4.toList ∧
    ((processSmali true sC4.toList).changed = false ↔
      patchCore (normalizeContent true sC4.toList) = normalizeContent true sC4.toList) :=
  ⟨(C4_changed_iff true sC4.toList).1 (by decide),
   (C4_changed_iff true sC4.toList).2 (by decide)⟩

/-- C6: for every target signature, with or without the final modifier, and
for every nonempty body that does not itself contain a newline followed by
the terminator, the structural match finds the declaration at its position
and captures exactly the text between the header line and the terminator
line as the body, whatever the body length and content. -/
theorem C6_structural_match (sig : List Char) (hsig : sig ∈ METHOD_SIGNATURES)
    (useFinal : Bool) (body post : List Char)
    (hb : body ≠ []) (hterm : containsSub TERM body = false) :
    findMatch sig (mkHeader sig useFinal ++ nlChar :: (body ++ TERM ++ post)) =
      some ([], mkHeader sig useFinal, body, post) :=
  findMatch_of_matchAt sig _ _ _ _ (matchAt_block sig hsig useFinal body post hb hterm)

theorem C6_witness :
    SIG_SERVER ∈ METHOD_SIGNATURES ∧
    findMatch SIG_SERVER
        (mkHeader SIG_SERVER true ++ nlChar :: (sBody6.toList ++ TERM ++ sPost6.toList)) =
      some ([], mkHeader SIG_SERVER true, sBody6.toList, sPost6.toList) :=
  ⟨by decide,
   C6_structural_match SIG_SERVER (by decide) true sBody6.toList sPost6.toList
     (by decide) (by decide)⟩

/-- C9: when the normalized text contains no newline-plus-terminator at all
(in particular for a file holding a target method header with no .end method
line after it), no pattern matches, the transform is total and returns the
input unchanged with changed = false. -/
theorem C9_missing_terminator (w : Bool) (t : List Char)
    (hheader : ∃ sig ∈ METHOD_SIGNATURES, ∃ f : Bool, ∃ u v,
      normalizeContent w t = u ++ (mkHeader sig f ++ [nlChar]) ++ v)
    (hnoterm : ∀ u v, normalizeContent w t ≠ u ++ TERM ++ v) :
    (processSmali w t).changed = false ∧ (processSmali w t).content = t := by
  have h := processSmali_unchanged_eq w t (patchCore_of_no_term _ hnoterm)
  rw [h]
  exact ⟨rfl, rfl⟩

theorem C9_witness :
    (processSmali false sC9.toList).changed = false ∧
    (processSmali false sC9.toList).content = sC9.toList :=
  C9_missing_terminator false sC9.toList
    ⟨SIG_CLIENT, by decide, false, sC9u.toList, sC9v.toList, by decide⟩
    (fun u v => (containsSub_eq_false_iff TERM _).mp (by decide) u v)

/-- C10: the per-signature replacement is global: when a file holds two
separate declarations of the same target signature (any glue text around and
between them that starts no further match for that signature), a single pass
of that signature's replace rewrites both occurrences. -/
theorem C10_global_per_signature (sig : List Char) (hsig : sig ∈ METHOD_SIGNATURES)
    (f1 f2 : Bool) (pre mid post b1 b2 : List Char)
    (hb1 : b1 ≠ []) (ht1 : containsSub TERM b1 = false)
    (hb2 : b2 ≠ []) (ht2 : containsSub TERM b2 = false)
    (hpre : noMatchStartIn sig pre
      (Block sig f1 b1 ++ (mid ++ (Block sig f2 b2 ++ post))) = true)
    (hmid : noMatchStartIn sig mid (Block sig f2 b2 ++ post) = true)
    (hpost : noMatchIn sig post = true) :
    replaceSig sig (pre ++ (Block sig f1 b1 ++ (mid ++ (Block sig f2 b2 ++ post)))) =
      pre ++ (PBlock sig f1 b1 ++ (mid ++ (PBlock sig f2 b2 ++ post))) := by
  rw [replaceSig_eq_some sig _ pre (mkHeader sig f1) b1
      (mid ++ (Block sig f2 b2 ++ post))
      (findMatch_block sig hsig f1 pre b1 (mid ++ (Block sig f2 b2 ++ post)) hb1 ht1 hpre),
    replaceSig_block sig hsig f2 mid b2 post hb2 ht2 hmid hpost]
  simp [PBlock]

theorem C10_witness :
    replaceSig SIG_ISSUERS (sPre10.toList ++ (Block SIG_ISSUERS false sB10a.toList ++
        (sMid10.toList ++ (Block SIG_ISSUERS true sB10b.toList ++ sPost10.toList)))) =
      sPre10.toList ++ (PBlock SIG_ISSUERS false sB10a.toList ++
        (sMid10.toList ++ (PBlock SIG_ISSUERS true sB10b.toList ++ sPost10.toList))) :=
  C10_global_per_signature SIG_ISSUERS (by decide) false true sPre10.toList
    sMid10.toList sPost10.toList sB10a.toList sB10b.toList
    (by decide) (by decide) (by decide) (by decide) (by decide) (by decide) (by decide)

/- CRLF line-ending reasoning. -/

/-- The text uses CRLF line endings throughout: every carriage return is
followed by a line feed and every line feed is preceded by a carriage
return. -/
def crlfOnly : List Char → Bool
  | [] => true
  | [c] => !(c == '\r') && !(c == '\n')
  | c :: d :: rest =>
    if c == '\r' then (d == '\n') && crlfOnly rest
    else !(c == '\n') && crlfOnly (d :: rest)

theorem crlfOnly_lf_head (v : List Char) : crlfOnly ('\n' :: v) = false := by
  cases v with
  | nil => rfl
  | cons d v' => rfl

theorem crlfToLf_noCR : ∀ t, crlfOnly t = true → '\r' ∉ crlfToLf t := by
  intro t
  induction t using crlfToLf.induct with
  | case1 =>
    intro _
    simp [crlfToLf]
  | case2 c =>
    intro h
    simp only [crlfOnly, Bool.and_eq_true, Bool.not_eq_true', beq_eq_false_iff_ne] at h
    simp only [crlfToLf, List.mem_singleton]
    exact fun habs => h.1 habs.symm
  | case3 c d rest hcond ih =>
    intro h
    simp only [crlfToLf]
    rw [if_pos hcond]
    rw [Bool.and_eq_true] at hcond
    obtain ⟨hcr, _⟩ := hcond
    simp only [crlfOnly] at h
    rw [if_pos hcr] at h
    rw [Bool.and_eq_true] at h
    obtain ⟨_, hrest⟩ := h
    intro habs
    rcases List.mem_cons.mp habs with h1 | h1
    · exact absurd h1 (by decide)
    · exact ih hrest h1
  | case4 c d rest hcond ih =>
    intro h
    simp only [crlfToLf]
    rw [if_neg hcond]
    by_cases hcr : (c == '\r') = true
    · simp only [crlfOnly] at h
      rw [if_pos hcr] at h
      rw [Bool.and_eq_true] at h
      obtain ⟨hd, _⟩ := h
      exact absurd (by rw [hcr, hd]; rfl) hcond
    · simp only [crlfOnly] at h
      rw [if_neg hcr] at h
      rw [Bool.and_eq_true] at h
      obtain ⟨_, hrest⟩ := h
      intro habs
      rcases List.mem_cons.mp habs with h1 | h1
      · exact absurd (by rw [← h1]; rfl) hcr
      · exact ih hrest h1

theorem lfToCrlf_crlfOnly : ∀ t, '\r' ∉ t → crlfOnly (lfToCrlf t) = true := by
  intro t
  induction t with
  | nil => intro _; rfl
  | cons c rest ih =>
    intro h
    have hc : c ≠ '\r' := by
      intro habs
      exact h (by rw [habs]; exact List.mem_cons_self _ _)
    have hrest : '\r' ∉ rest := fun hx => h (List.mem_cons_of_mem c hx)
    simp only [lfToCrlf]
    by_cases hcn : (c == '\n') = true
    · rw [if_pos hcn]
      simp only [crlfOnly]
      rw [if_pos (by rfl)]
      simp [ih hrest]
    · rw [if_neg hcn]
      cases hl : lfToCrlf rest with
      | nil =>
        simp only [crlfOnly]
        simp [hc, Bool.of_not_eq_true hcn]
      | cons d rest2 =>
        simp only [crlfOnly]
        rw [if_neg (by simp [hc]), ← hl]
        simp [Bool.of_not_eq_true hcn, ih hrest]

theorem crlfOnly_mid :
    ∀ t, crlfOnly t = true → ∀ u x v, t = u ++ x :: '\n' :: v → x = '\r' := by
  intro t
  induction t using crlfOnly.induct with
  | case1 =>
    intro _ u x v habs
    exact absurd habs (by simp)
  | case2 c =>
    intro _ u x v habs
    have hlen := congrArg List.length habs
    simp [List.length_append] at hlen
    omega
  | case3 c d rest hcr ih =>
    intro h u x v habs
    simp only [crlfOnly] at h
    rw [if_pos hcr] at h
    rw [Bool.and_eq_true] at h
    obtain ⟨hd, hrest⟩ := h
    cases u with
    | nil =>
      simp only [List.nil_append, List.cons.injEq] at habs
      rw [← habs.1]
      exact beq_iff_eq.mp hcr
    | cons e u' =>
      cases u' with
      | nil =>
        simp only [List.cons_append, List.nil_append, List.cons.injEq] at habs
        obtain ⟨_, _, hrv⟩ := habs
        rw [hrv, crlfOnly_lf_head] at hrest
        exact absurd hrest (by simp)
      | cons e2 u'' =>
        simp only [List.cons_append, List.cons.injEq] at habs
        obtain ⟨_, _, hrt⟩ := habs
        exact ih hrest u'' x v hrt
  | case4 c d rest hcr ih =>
    intro h u x v habs
    simp only [crlfOnly] at h
    rw [if_neg hcr] at h
    rw [Bool.and_eq_true] at h
    obtain ⟨hcn, hrest⟩ := h
    cases u with
    | nil =>
      simp only [List.nil_append, List.cons.injEq] at habs
      obtain ⟨hcx, hdn, _⟩ := habs
      rw [hdn, crlfOnly_lf_head] at hrest
      exact absurd hrest (by simp)
    | cons e u' =>
      simp only [List.cons_append, List.cons.injEq] at habs
      exact ih hrest u' x v habs.2

/- Character membership through the rewriting pipeline. -/

theorem mem_dropWhile (p : Char → Bool) (l : List Char) (x : Char)
    (h : x ∈ l.dropWhile p) : x ∈ l :=
  (List.dropWhile_sublist p).subset h

theorem mem_jsTrimEnd (l : List Char) (x : Char) (h : x ∈ jsTrimEnd l) : x ∈ l := by
  unfold jsTrimEnd at h
  rw [List.mem_reverse] at h
  exact List.mem_reverse.mp (mem_dropWhile _ _ _ h)

theorem mem_joinNL (x : Char) : ∀ ls, x ∈ joinNL ls → x = nlChar ∨ ∃ l ∈ ls, x ∈ l := by
  intro ls
  induction ls with
  | nil =>
    intro h
    simp [joinNL] at h
  | cons l ls' ih =>
    intro h
    cases ls' with
    | nil =>
      exact Or.inr ⟨l, by simp, by simpa [joinNL] using h⟩
    | cons l2 ls'' =>
      simp only [joinNL] at h
      rcases List.mem_append.mp h with h1 | h1
      · exact Or.inr ⟨l, by simp, h1⟩
      · rcases List.mem_cons.mp h1 with h2 | h2
        · exact Or.inl h2
        · rcases ih h2 with h3 | ⟨l3, hl3, hx⟩
          · exact Or.inl h3
          · exact Or.inr ⟨l3, List.mem_cons_of_mem l hl3, hx⟩

theorem mem_splitNL : ∀ t, ∀ l ∈ splitNL t, ∀ x ∈ l, x ∈ t := by
  intro t
  induction t with
  | nil =>
    intro l hl x hx
    simp [splitNL] at hl
    subst hl
    simp at hx
  | cons c rest ih =>
    intro l hl x hx
    simp only [splitNL] at hl
    by_cases hc : (c == nlChar) = true
    · rw [if_pos hc] at hl
      rcases List.mem_cons.mp hl with h1 | h1
      · subst h1
        simp at hx
      · exact List.mem_cons_of_mem c (ih l h1 x hx)
    · rw [if_neg hc] at hl
      cases hsp : splitNL rest with
      | nil =>
        rw [hsp] at hl
        simp at hl
        subst hl
        simp at hx
        subst hx
        exact List.mem_cons_self _ _
      | cons l0 ls0 =>
        rw [hsp] at hl
        rcases List.mem_cons.mp hl with h1 | h1
        · subst h1
          rcases List.mem_cons.mp hx with h2 | h2
          · subst h2
            exact List.mem_cons_self _ _
          · exact List.mem_cons_of_mem c
              (ih l0 (by rw [hsp]; exact List.mem_cons_self _ _) x h2)
        · exact List.mem_cons_of_mem c
            (ih l (by rw [hsp]; exact List.mem_cons_of_mem _ h1) x hx)

theorem mem_stripIndent (l : List Char) (x : Char) (h : x ∈ stripIndent l) : x ∈ l := by
  unfold stripIndent at h
  by_cases hc : startsWith sIndent.toList l = true
  · rw [if_pos hc] at h
    exact List.mem_of_mem_drop h
  · rw [if_neg hc] at h
    exact h

theorem chooseFix_noCR (h l1 : List Char) (hl1 : l1 ∈ chooseFix h) : '\r' ∉ l1 := by
  unfold chooseFix at hl1
  split at hl1
  · fin_cases hl1 <;> decide
  · fin_cases hl1 <;> decide

theorem renderPatch_noCR (h b : List Char) (hh : '\r' ∉ h) (hb : '\r' ∉ b) :
    '\r' ∉ renderPatch h b END_LINE := by
  intro habs
  unfold renderPatch at habs
  rcases mem_joinNL '\r' _ habs with h1 | ⟨l, hl, hx⟩
  · exact absurd h1 (by decide)
  rw [List.mem_map] at hl
  obtain ⟨l0, hl0, hteq⟩ := hl
  rw [← hteq] at hx
  have hx0 : '\r' ∈ l0 := mem_jsTrimEnd l0 '\r' hx
  rcases List.mem_append.mp hl0 with h2 | h2
  swap
  · simp only [List.mem_singleton] at h2
    subst h2
    exact absurd hx0 (by decide)
  rcases List.mem_append.mp h2 with h3 | h3
  · simp only [List.mem_singleton] at h3
    subst h3
    exact hh hx0
  rw [List.mem_map] at h3
  obtain ⟨l1, hl1, hind⟩ := h3
  rw [← hind] at hx0
  rcases List.mem_append.mp hx0 with h4 | h4
  · exact absurd h4 (by decide)
  unfold patchedBodyLines at hl1
  rcases List.mem_append.mp hl1 with h5 | h5
  swap
  · rw [List.mem_map] at h5
    obtain ⟨l2, hl2, hcom⟩ := h5
    rw [← hcom] at h4
    rcases List.mem_append.mp h4 with h6 | h6
    · exact absurd h6 (by decide)
    rw [List.mem_map] at hl2
    obtain ⟨l3, hl3, hstr⟩ := hl2
    rw [← hstr] at h6
    exact hb (mem_splitNL b l3 hl3 '\r' (mem_stripIndent l3 '\r' h6))
  rcases List.mem_append.mp h5 with h6 | h6
  swap
  · rcases List.mem_cons.mp h6 with h7 | h7
    · subst h7
      exact absurd h4 (by decide)
    simp only [List.mem_singleton] at h7
    subst h7
    exact absurd h4 (by decide)
  rcases List.mem_append.mp h6 with h7 | h7
  swap
  · simp only [List.mem_singleton] at h7
    subst h7
    simp at h4
  rcases List.mem_append.mp h7 with h8 | h8
  · simp only [List.mem_singleton] at h8
    subst h8
    exact absurd h4 (by decide)
  · exact chooseFix_noCR h l1 h8 h4

theorem replaceSig_noCR_aux (sig : List Char) :
    ∀ n t, t.length ≤ n → '\r' ∉ t → '\r' ∉ replaceSig sig t := by
  intro n
  induction n with
  | zero =>
    intro t hlen hmem
    have ht : t = [] := List.length_eq_zero.mp (Nat.le_zero.mp hlen)
    subst ht
    rw [replaceSig_eq_none sig [] (findMatch_nil sig)]
    exact hmem
  | succ n' ih =>
    intro t hlen hmem
    cases hf : findMatch sig t with
    | none =>
      rw [replaceSig_eq_none sig t hf]
      exact hmem
    | some q =>
      obtain ⟨p, h, b, r⟩ := q
      rw [replaceSig_eq_some sig t p h b r hf]
      obtain ⟨ht, _⟩ := findMatch_sound sig t p h b r hf
      have hp : '\r' ∉ p := fun hx => hmem (by rw [ht]; simp [hx])
      have hh : '\r' ∉ h := fun hx => hmem (by rw [ht]; simp [hx])
      have hbm : '\r' ∉ b := fun hx => hmem (by rw [ht]; simp [hx])
      have hr : '\r' ∉ r := fun hx => hmem (by rw [ht]; simp [hx])
      intro habs
      rcases List.mem_append.mp habs with h1 | h1
      · rcases List.mem_append.mp h1 with h2 | h2
        · exact hp h2
        · exact renderPatch_noCR h b hh hbm h2
      · have hlt := findMatch_rest_lt sig t p h b r hf
        exact ih r (by omega) hr h1

theorem patchCore_noCR (t : List Char) (h : '\r' ∉ t) : '\r' ∉ patchCore t := by
  rw [patchCore_eq]
  exact replaceSig_noCR_aux SIG_ISSUERS _ _ (Nat.le_refl _)
    (replaceSig_noCR_aux SIG_SERVER _ _ (Nat.le_refl _)
      (replaceSig_noCR_aux SIG_CLIENT _ _ (Nat.le_refl _) h))

theorem crlfOnly_no_match (sig : List Char) (hsig : sig ∈ METHOD_SIGNATURES)
    (t : List Char) (hc : crlfOnly t = true) : findMatch sig t = none := by
  cases hf : findMatch sig t with
  | none => rfl
  | some q =>
    obtain ⟨p, h, b, r⟩ := q
    obtain ⟨ht, hhd⟩ := findMatch_sound sig t p h b r hf
    exfalso
    simp only [METHOD_SIGNATURES, List.mem_cons, List.not_mem_nil, or_false] at hsig
    have key : ∃ h0 e, h = h0 ++ [e] ∧ e ≠ '\r' := by
      rcases hsig with h1 | h1 | h1 <;> subst h1 <;> rcases hhd with h2 | h2 <;> subst h2
      · exact ⟨(headerPlain SIG_CLIENT).dropLast, 'V', by decide, by decide⟩
      · exact ⟨(headerFinal SIG_CLIENT).dropLast, 'V', by decide, by decide⟩
      · exact ⟨(headerPlain SIG_SERVER).dropLast, 'V', by decide, by decide⟩
      · exact ⟨(headerFinal SIG_SERVER).dropLast, 'V', by decide, by decide⟩
      · exact ⟨(headerPlain SIG_ISSUERS).dropLast, ';', by decide, by decide⟩
      · exact ⟨(headerFinal SIG_ISSUERS).dropLast, ';', by decide, by decide⟩
    obtain ⟨h0, e, he, hne⟩ := key
    have ht2 : t = (p ++ h0) ++ e :: nlChar :: (b ++ TERM ++ r) := by
      rw [ht, he]
      simp
    exact hne (crlfOnly_mid t hc (p ++ h0) e (b ++ TERM ++ r) ht2)

def sC3 : String := ".implements Ljavax/net/ssl/X509TrustManager;\r\n.method public getAcceptedIssuers()[Ljava/security/cert/X509Certificate;\r\n    .locals 1\r\n    pinning-lookup v0\r\n    return-object v0\r\n.end method\r\n"

/-- C3: for every input using CRLF line endings throughout that the engine
patches (on any host platform flag), the output uses CRLF throughout with no
mixed endings: on Windows the content is LF-normalized before matching, the
rewriting introduces no carriage return, and the final conversion maps every
line feed back to CRLF; on a non-Windows host a CRLF-throughout file can
never be patched, because the patterns require a bare line feed directly
after the header. -/
theorem C3_crlf_fidelity (w : Bool) (orig : List Char)
    (hcrlf : crlfOnly orig = true)
    (hch : (processSmali w orig).changed = true) :
    crlfOnly (processSmali w orig).content = true := by
  cases w with
  | false =>
    have hid : patchCore (normalizeContent false orig) = normalizeContent false orig := by
      show patchCore orig = orig
      rw [patchCore_eq,
        replaceSig_eq_none _ _
          (crlfOnly_no_match SIG_CLIENT (by simp [METHOD_SIGNATURES]) orig hcrlf),
        replaceSig_eq_none _ _
          (crlfOnly_no_match SIG_SERVER (by simp [METHOD_SIGNATURES]) orig hcrlf),
        replaceSig_eq_none _ _
          (crlfOnly_no_match SIG_ISSUERS (by simp [METHOD_SIGNATURES]) orig hcrlf)]
    rw [processSmali_unchanged_eq false orig hid] at hch
    simp at hch
  | true =>
    unfold processSmali at hch ⊢
    by_cases hcand : isCandidate orig = false
    · rw [if_pos hcand] at hch
      simp at hch
    · rw [if_neg hcand] at hch ⊢
      by_cases hne : normalizeContent true orig ≠ patchCore (normalizeContent true orig)
      · rw [if_pos hne]
        show crlfOnly (lfToCrlf (patchCore (normalizeContent true orig))) = true
        exact lfToCrlf_crlfOnly _ (patchCore_noCR _ (crlfToLf_noCR orig hcrlf))
      · rw [if_neg hne] at hch
        simp at hch

theorem C3_witness :
    crlfOnly sC3.toList = true ∧
    (processSmali true sC3.toList).changed = true ∧
    crlfOnly (processSmali true sC3.toList).content = true :=
  ⟨by decide, by decide, C3_crlf_fidelity true sC3.toList (by decide) (by decide)⟩

/- Occurrences of line-ending-free patterns survive CRLF normalization. -/

theorem crlfToLf_pre (s : List Char) (hr : '\r' ∉ s) (hn : '\n' ∉ s) :
    ∀ t v, crlfToLf t = s ++ v → ∃ v', t = s ++ v' ∧ crlfToLf v' = v := by
  induction s with
  | nil =>
    intro t v h
    exact ⟨t, rfl, by simpa using h⟩
  | cons c s' ih =>
    intro t v h
    have hcn : c ≠ '\n' := fun habs => hn (by rw [habs]; exact List.mem_cons_self _ _)
    have hr' : '\r' ∉ s' := fun hx => hr (List.mem_cons_of_mem c hx)
    have hn' : '\n' ∉ s' := fun hx => hn (List.mem_cons_of_mem c hx)
    cases t with
    | nil => simp [crlfToLf] at h
    | cons a rest =>
      cases rest with
      | nil =>
        simp only [crlfToLf, List.cons_append, List.cons.injEq] at h
        obtain ⟨hac, hsv⟩ := h
        have hs' : s' = [] := by
          cases s' with
          | nil => rfl
          | cons x xs => exact absurd hsv (by simp)
        have hv : v = [] := by
          subst hs'
          simpa using hsv
        exact ⟨[], by simp [hs', hac], by simp [hv, crlfToLf]⟩
      | cons d rest2 =>
        by_cases hcond : (a == '\r' && d == '\n') = true
        · simp only [crlfToLf] at h
          rw [if_pos hcond] at h
          simp only [List.cons_append, List.cons.injEq] at h
          exact absurd h.1.symm hcn
        · simp only [crlfToLf] at h
          rw [if_neg hcond] at h
          simp only [List.cons_append, List.cons.injEq] at h
          obtain ⟨hac, h2⟩ := h
          obtain ⟨v', hv1, hv2⟩ := ih hr' hn' (d :: rest2) v h2
          exact ⟨v', by simp [hac, hv1], hv2⟩

theorem crlfToLf_occurrence (pat : List Char) (hr : '\r' ∉ pat) (hn : '\n' ∉ pat) :
    ∀ t u v, crlfToLf t = u ++ pat ++ v → ∃ u' v', t = u' ++ pat ++ v' := by
  intro t
  induction t using crlfToLf.induct with
  | case1 =>
    intro u v h
    simp only [crlfToLf] at h
    exact ⟨u, v, h⟩
  | case2 c =>
    intro u v h
    simp only [crlfToLf] at h
    exact ⟨u, v, h⟩
  | case3 a d rest hcond ih =>
    intro u v h
    simp only [crlfToLf] at h
    rw [if_pos hcond] at h
    cases u with
    | nil =>
      cases pat with
      | nil => exact ⟨[], a :: d :: rest, by simp⟩
      | cons pc pat' =>
        simp only [List.nil_append, List.cons_append, List.cons.injEq] at h
        exact absurd (by rw [h.1]; exact List.mem_cons_self _ _) hn
    | cons cu u' =>
      simp only [List.cons_append, List.cons.injEq] at h
      obtain ⟨u2, v2, h2⟩ := ih u' v h.2
      exact ⟨a :: d :: u2, v2, by simp [h2]⟩
  | case4 a d rest hcond ih =>
    intro u v h
    simp only [crlfToLf] at h
    rw [if_neg hcond] at h
    cases u with
    | nil =>
      cases pat with
      | nil => exact ⟨[], a :: d :: rest, by simp⟩
      | cons pc pat' =>
        simp only [List.nil_append, List.cons_append, List.cons.injEq] at h
        obtain ⟨hac, h2⟩ := h
        have hr' : '\r' ∉ pat' := fun hx => hr (List.mem_cons_of_mem pc hx)
        have hn' : '\n' ∉ pat' := fun hx => hn (List.mem_cons_of_mem pc hx)
        obtain ⟨v', hv1, hv2⟩ := crlfToLf_pre pat' hr' hn' (d :: rest) v h2
        exact ⟨[], v', by simp [hv1, hac]⟩
    | cons cu u' =>
      simp only [List.cons_append, List.cons.injEq] at h
      obtain ⟨u2, v2, h2⟩ := ih u' v h.2
      exact ⟨a :: u2, v2, by simp [h2]⟩

def sC8 : String := "hello world, nothing relevant here"

/-- C8: the candidate filter returns true exactly when the text contains the
literal interface line (so every text without the marker is rejected); and
the patch transform is safely invocable on any text: whenever none of the
three target signatures occurs in the text, it reports changed = false, on
any platform. -/
theorem C8_candidate_filter (t : List Char) (w : Bool) :
    (isCandidate t = true ↔ ∃ u v, t = u ++ INTERFACE_LINE ++ v) ∧
    ((∀ sig ∈ METHOD_SIGNATURES, ∀ u v, t ≠ u ++ sig ++ v) →
      (processSmali w t).changed = false) := by
  constructor
  · exact containsSub_iff INTERFACE_LINE t
  · intro h
    have hnorm : ∀ sig ∈ METHOD_SIGNATURES, ∀ u v,
        normalizeContent w t ≠ u ++ sig ++ v := by
      intro sig hsig u v
      cases w with
      | false => exact h sig hsig u v
      | true =>
        have hrn : '\r' ∉ sig ∧ '\n' ∉ sig := by
          simp only [METHOD_SIGNATURES, List.mem_cons, List.not_mem_nil,
            or_false] at hsig
          rcases hsig with h1 | h1 | h1 <;> subst h1 <;> exact ⟨by decide, by decide⟩
        intro habs
        obtain ⟨u', v', h2⟩ := crlfToLf_occurrence sig hrn.1 hrn.2 t u v habs
        exact h sig hsig u' v' h2
    rw [processSmali_unchanged_eq w t (patchCore_id_of_no_sigs _ hnorm)]

theorem C8_witness :
    (isCandidate sC8.toList = true ↔ ∃ u v, sC8.toList = u ++ INTERFACE_LINE ++ v) ∧
    (processSmali false sC8.toList).changed = false :=
  ⟨(C8_candidate_filter sC8.toList false).1,
   (C8_candidate_filter sC8.toList false).2 (by
     intro sig hsig u v
     simp only [METHOD_SIGNATURES, List.mem_cons, List.not_mem_nil, or_false] at hsig
     rcases hsig with h1 | h1 | h1 <;> subst h1 <;>
       exact (containsSub_eq_false_iff _ _).mp (by decide) u v)⟩

/- Line-level structure of the rewritten block. -/

theorem nl_not_mem_splitNL : ∀ t, ∀ l ∈ splitNL t, nlChar ∉ l := by
  intro t
  induction t with
  | nil =>
    intro l hl
    simp [splitNL] at hl
    subst hl
    simp
  | cons c rest ih =>
    intro l hl
    simp only [splitNL] at hl
    by_cases hc : (c == nlChar) = true
    · rw [if_pos hc] at hl
      rcases List.mem_cons.mp hl with h1 | h1
      · subst h1
        simp
      · exact ih l h1
    · rw [if_neg hc] at hl
      cases hsp : splitNL rest with
      | nil =>
        rw [hsp] at hl
        simp at hl
        subst hl
        intro habs
        rcases List.mem_singleton.mp habs with h2
        exact hc (by rw [h2]; exact beq_self_eq_true c)
      | cons l0 ls0 =>
        rw [hsp] at hl
        rcases List.mem_cons.mp hl with h1 | h1
        · subst h1
          intro habs
          rcases List.mem_cons.mp habs with h2 | h2
          · exact hc (by rw [h2]; exact beq_self_eq_true c)
          · exact ih l0 (by rw [hsp]; exact List.mem_cons_self _ _) h2
        · exact ih l (by rw [hsp]; exact List.mem_cons_of_mem _ h1)

theorem splitNL_of_no_nl : ∀ l : List Char, nlChar ∉ l → splitNL l = [l] := by
  intro l
  induction l with
  | nil => intro _; rfl
  | cons c rest ih =>
    intro h
    have hc : (c == nlChar) = false := by
      rw [beq_eq_false_iff_ne]
      intro habs
      exact h (by rw [habs]; exact List.mem_cons_self _ _)
    have hrest : nlChar ∉ rest := fun hx => h (List.mem_cons_of_mem c hx)
    simp only [splitNL]
    rw [if_neg (by rw [hc]; exact Bool.false_ne_true), ih hrest]

theorem splitNL_append_nl (l rest : List Char) (h : nlChar ∉ l) :
    splitNL (l ++ nlChar :: rest) = l :: splitNL rest := by
  induction l with
  | nil =>
    simp only [List.nil_append, splitNL]
    rw [if_pos (by rfl)]
  | cons c l' ih =>
    have hc : (c == nlChar) = false := by
      rw [beq_eq_false_iff_ne]
      intro habs
      exact h (by rw [habs]; exact List.mem_cons_self _ _)
    have hl' : nlChar ∉ l' := fun hx => h (List.mem_cons_of_mem c hx)
    simp only [List.cons_append, splitNL, List.append_eq]
    rw [if_neg (by rw [hc]; exact Bool.false_ne_true), ih hl']

theorem splitNL_joinNL : ∀ ls : List (List Char), ls ≠ [] →
    (∀ l ∈ ls, nlChar ∉ l) → splitNL (joinNL ls) = ls := by
  intro ls
  induction ls with
  | nil => intro h _; exact absurd rfl h
  | cons l ls' ih =>
    intro _ hnl
    cases ls' with
    | nil =>
      show splitNL (joinNL [l]) = [l]
      simp only [joinNL]
      exact splitNL_of_no_nl l (hnl l (List.mem_cons_self _ _))
    | cons l2 ls'' =>
      simp only [joinNL]
      rw [splitNL_append_nl l _ (hnl l (List.mem_cons_self _ _)),
        ih (by simp) (fun l3 hl3 => hnl l3 (List.mem_cons_of_mem l hl3))]

theorem chooseFix_noNL (h l1 : List Char) (hl1 : l1 ∈ chooseFix h) : nlChar ∉ l1 := by
  unfold chooseFix at hl1
  split at hl1
  · fin_cases hl1 <;> decide
  · fin_cases hl1 <;> decide

/-- C5: the rewritten block, split back into lines, is exactly: the header
line unchanged, then the inserted marker, fix, separator and disabled-body
marker lines, then every line of the original body in original order — each
altered only by stripping one level of indentation, prefixing the comment
marker, re-indenting and trimming trailing whitespace — and finally the
terminator line unchanged. -/
theorem C5_body_preservation (opening body : List Char)
    (hnl : nlChar ∉ opening) (htr : jsTrimEnd opening = opening) :
    splitNL (renderPatch opening body END_LINE) =
      [opening]
      ++ ([sMarkerInserted.toList] ++ chooseFix opening ++ [[]]
          ++ [sMarkerCommented.toList, sCommentSp.toList]).map
            (fun line => jsTrimEnd (sIndent.toList ++ line))
      ++ (splitNL body).map
          (fun line => jsTrimEnd (sIndent.toList ++ (sCommentSp.toList ++ stripIndent line)))
      ++ [END_LINE] := by
  have hend : jsTrimEnd END_LINE = END_LINE := by decide
  unfold renderPatch patchedBodyLines
  have hfree : ∀ l ∈ (([opening]
      ++ ([sMarkerInserted.toList] ++ chooseFix opening ++ [[]]
          ++ [sMarkerCommented.toList, sCommentSp.toList]
          ++ ((splitNL body).map stripIndent).map (fun line => sCommentSp.toList ++ line)).map
            (fun line => sIndent.toList ++ line)
      ++ [END_LINE]).map jsTrimEnd), nlChar ∉ l := by
    intro l hl
    rw [List.mem_map] at hl
    obtain ⟨l0, hl0, heq⟩ := hl
    intro habs
    rw [← heq] at habs
    have h0 : nlChar ∈ l0 := mem_jsTrimEnd l0 nlChar habs
    rcases List.mem_append.mp hl0 with h1 | h1
    swap
    · simp only [List.mem_singleton] at h1
      subst h1
      exact absurd h0 (by decide)
    rcases List.mem_append.mp h1 with h2 | h2
    · simp only [List.mem_singleton] at h2
      subst h2
      exact hnl h0
    rw [List.mem_map] at h2
    obtain ⟨l1, hl1, hind⟩ := h2
    rw [← hind] at h0
    rcases List.mem_append.mp h0 with h3 | h3
    · exact absurd h3 (by decide)
    rcases List.mem_append.mp hl1 with h4 | h4
    swap
    · rw [List.mem_map] at h4
      obtain ⟨l2, hl2, hcom⟩ := h4
      rw [← hcom] at h3
      rcases List.mem_append.mp h3 with h9 | h9
      · exact absurd h9 (by decide)
      rw [List.mem_map] at hl2
      obtain ⟨l3, hl3, hstr⟩ := hl2
      rw [← hstr] at h9
      exact nl_not_mem_splitNL body l3 hl3 (mem_stripIndent l3 nlChar h9)
    rcases List.mem_append.mp h4 with h5 | h5
    swap
    · rcases List.mem_cons.mp h5 with h8 | h8
      · subst h8
        exact absurd h3 (by decide)
      · simp only [List.mem_singleton] at h8
        subst h8
        exact absurd h3 (by decide)
    rcases List.mem_append.mp h5 with h6 | h6
    swap
    · simp only [List.mem_singleton] at h6
      subst h6
      simp at h3
    rcases List.mem_append.mp h6 with h7 | h7
    · simp only [List.mem_singleton] at h7
      subst h7
      exact absurd h3 (by decide)
    · exact chooseFix_noNL opening l1 h7 h3
  rw [splitNL_joinNL _ (by simp) hfree]
  simp only [List.map_append, List.map_map, List.map_cons, List.map_nil, htr, hend]
  simp only [Function.comp_def]
  simp [List.append_assoc]

def sBody5 : String := "    pin-check v0\n    throw-on-mismatch v1"

theorem C5_witness :
    splitNL (renderPatch (mkHeader SIG_CLIENT false) sBody5.toList END_LINE) =
      [mkHeader SIG_CLIENT false]
      ++ ([sMarkerInserted.toList] ++ chooseFix (mkHeader SIG_CLIENT false) ++ [[]]
          ++ [sMarkerCommented.toList, sCommentSp.toList]).map
            (fun line => jsTrimEnd (sIndent.toList ++ line))
      ++ (splitNL sBody5.toList).map
          (fun line => jsTrimEnd (sIndent.toList ++ (sCommentSp.toList ++ stripIndent line)))
      ++ [END_LINE] :=
  C5_body_preservation (mkHeader SIG_CLIENT false) sBody5.toList (by decide) (by decide)

/- A well-formed class holding all three target methods. -/

/-- One target-method segment: the original declaration (false) or the
already rewritten block (true). -/
def seg (sig : List Char) (f : Bool) (b : List Char) : Bool → List Char
  | false => Block sig f b
  | true => PBlock sig f b

/-- A class holding the three target methods in signature order with glue
text around them; the last three Booleans say which methods have already
been rewritten. -/
def classState (f1 f2 f3 : Bool) (b1 b2 b3 g0 g1 g2 g3 : List Char)
    (x1 x2 x3 : Bool) : List Char :=
  g0 ++ (seg SIG_CLIENT f1 b1 x1 ++ (g1 ++ (seg SIG_SERVER f2 b2 x2 ++
    (g2 ++ (seg SIG_ISSUERS f3 b3 x3 ++ g3)))))

/-- Well-formedness of such a class for the matcher: bodies are nonempty and
hold no embedded terminator, and no pattern matches anywhere except at its
own method block, in every intermediate rewriting state. -/
abbrev wfClass (f1 f2 f3 : Bool) (b1 b2 b3 g0 g1 g2 g3 : List Char) : Prop :=
  b1 ≠ [] ∧ b2 ≠ [] ∧ b3 ≠ [] ∧
  containsSub TERM b1 = false ∧ containsSub TERM b2 = false ∧
  containsSub TERM b3 = false ∧
  (∀ x2 x3 : Bool,
    noMatchStartIn SIG_CLIENT g0
      (Block SIG_CLIENT f1 b1 ++ (g1 ++ (seg SIG_SERVER f2 b2 x2 ++
        (g2 ++ (seg SIG_ISSUERS f3 b3 x3 ++ g3))))) = true ∧
    noMatchIn SIG_CLIENT
      (g1 ++ (seg SIG_SERVER f2 b2 x2 ++ (g2 ++ (seg SIG_ISSUERS f3 b3 x3 ++ g3)))) =
      true) ∧
  (∀ x1 x3 : Bool,
    noMatchStartIn SIG_SERVER (g0 ++ (seg SIG_CLIENT f1 b1 x1 ++ g1))
      (Block SIG_SERVER f2 b2 ++ (g2 ++ (seg SIG_ISSUERS f3 b3 x3 ++ g3))) = true ∧
    noMatchIn SIG_SERVER (g2 ++ (seg SIG_ISSUERS f3 b3 x3 ++ g3)) = true) ∧
  (∀ x1 x2 : Bool,
    noMatchStartIn SIG_ISSUERS
      (g0 ++ (seg SIG_CLIENT f1 b1 x1 ++ (g1 ++ (seg SIG_SERVER f2 b2 x2 ++ g2))))
      (Block SIG_ISSUERS f3 b3 ++ g3) = true ∧
    noMatchIn SIG_ISSUERS g3 = true)

theorem C7_step1 (f1 f2 f3 : Bool) (b1 b2 b3 g0 g1 g2 g3 : List Char)
    (hwf : wfClass f1 f2 f3 b1 b2 b3 g0 g1 g2 g3) (x2 x3 : Bool) :
    replaceSig SIG_CLIENT (classState f1 f2 f3 b1 b2 b3 g0 g1 g2 g3 false x2 x3) =
      classState f1 f2 f3 b1 b2 b3 g0 g1 g2 g3 true x2 x3 := by
  obtain ⟨hb1, _, _, ht1, _, _, hA, _, _⟩ := hwf
  exact replaceSig_block SIG_CLIENT (by simp [METHOD_SIGNATURES]) f1 g0 b1
    (g1 ++ (seg SIG_SERVER f2 b2 x2 ++ (g2 ++ (seg SIG_ISSUERS f3 b3 x3 ++ g3))))
    hb1 ht1 (hA x2 x3).1 (hA x2 x3).2

theorem C7_step2 (f1 f2 f3 : Bool) (b1 b2 b3 g0 g1 g2 g3 : List Char)
    (hwf : wfClass f1 f2 f3 b1 b2 b3 g0 g1 g2 g3) (x1 x3 : Bool) :
    replaceSig SIG_SERVER (classState f1 f2 f3 b1 b2 b3 g0 g1 g2 g3 x1 false x3) =
      classState f1 f2 f3 b1 b2 b3 g0 g1 g2 g3 x1 true x3 := by
  obtain ⟨_, hb2, _, _, ht2, _, _, hB, _⟩ := hwf
  have hsh : classState f1 f2 f3 b1 b2 b3 g0 g1 g2 g3 x1 false x3 =
      (g0 ++ (seg SIG_CLIENT f1 b1 x1 ++ g1)) ++
        (Block SIG_SERVER f2 b2 ++ (g2 ++ (seg SIG_ISSUERS f3 b3 x3 ++ g3))) := by
    simp [classState, seg, List.append_assoc]
  rw [hsh, replaceSig_block SIG_SERVER (by simp [METHOD_SIGNATURES]) f2
    (g0 ++ (seg SIG_CLIENT f1 b1 x1 ++ g1)) b2
    (g2 ++ (seg SIG_ISSUERS f3 b3 x3 ++ g3)) hb2 ht2 (hB x1 x3).1 (hB x1 x3).2]
  simp [classState, seg, List.append_assoc]

theorem C7_step3 (f1 f2 f3 : Bool) (b1 b2 b3 g0 g1 g2 g3 : List Char)
    (hwf : wfClass f1 f2 f3 b1 b2 b3 g0 g1 g2 g3) (x1 x2 : Bool) :
    replaceSig SIG_ISSUERS (classState f1 f2 f3 b1 b2 b3 g0 g1 g2 g3 x1 x2 false) =
      classState f1 f2 f3 b1 b2 b3 g0 g1 g2 g3 x1 x2 true := by
  obtain ⟨_, _, hb3, _, _, ht3, _, _, hC⟩ := hwf
  have hsh : classState f1 f2 f3 b1 b2 b3 g0 g1 g2 g3 x1 x2 false =
      (g0 ++ (seg SIG_CLIENT f1 b1 x1 ++ (g1 ++ (seg SIG_SERVER f2 b2 x2 ++ g2)))) ++
        (Block SIG_ISSUERS f3 b3 ++ g3) := by
    simp [classState, seg, List.append_assoc]
  rw [hsh, replaceSig_block SIG_ISSUERS (by simp [METHOD_SIGNATURES]) f3
    (g0 ++ (seg SIG_CLIENT f1 b1 x1 ++ (g1 ++ (seg SIG_SERVER f2 b2 x2 ++ g2)))) b3
    g3 hb3 ht3 (hC x1 x2).1 (hC x1 x2).2]
  simp [classState, seg, List.append_assoc]

/-- C7: in a well-formed class declaring all three target methods, the three
signature patches are independent: the engine's pass (patchCore) rewrites
all three, and applying the three per-signature replaces sequentially in any
of the six orders produces the same fully rewritten class, each pattern
rewriting only its own block. -/
theorem C7_order_independent (f1 f2 f3 : Bool) (b1 b2 b3 g0 g1 g2 g3 : List Char)
    (hwf : wfClass f1 f2 f3 b1 b2 b3 g0 g1 g2 g3) :
    patchCore (classState f1 f2 f3 b1 b2 b3 g0 g1 g2 g3 false false false) =
      classState f1 f2 f3 b1 b2 b3 g0 g1 g2 g3 true true true ∧
    ∀ order ∈ [[SIG_CLIENT, SIG_SERVER, SIG_ISSUERS],
        [SIG_CLIENT, SIG_ISSUERS, SIG_SERVER],
        [SIG_SERVER, SIG_CLIENT, SIG_ISSUERS],
        [SIG_SERVER, SIG_ISSUERS, SIG_CLIENT],
        [SIG_ISSUERS, SIG_CLIENT, SIG_SERVER],
        [SIG_ISSUERS, SIG_SERVER, SIG_CLIENT]],
      order.foldl (fun acc sig => replaceSig sig acc)
        (classState f1 f2 f3 b1 b2 b3 g0 g1 g2 g3 false false false) =
      classState f1 f2 f3 b1 b2 b3 g0 g1 g2 g3 true true true := by
  have s1 := C7_step1 f1 f2 f3 b1 b2 b3 g0 g1 g2 g3 hwf
  have s2 := C7_step2 f1 f2 f3 b1 b2 b3 g0 g1 g2 g3 hwf
  have s3 := C7_step3 f1 f2 f3 b1 b2 b3 g0 g1 g2 g3 hwf
  constructor
  · rw [patchCore_eq, s1 false false, s2 true false, s3 true true]
  · intro order horder
    simp only [List.mem_cons, List.not_mem_nil, or_false] at horder
    rcases horder with h | h | h | h | h | h
    · subst h
      simp only [List.foldl]
      rw [s1 false false, s2 true false, s3 true true]
    · subst h
      simp only [List.foldl]
      rw [s1 false false, s3 true false, s2 true true]
    · subst h
      simp only [List.foldl]
      rw [s2 false false, s1 true false, s3 true true]
    · subst h
      simp only [List.foldl]
      rw [s2 false false, s3 false true, s1 true true]
    · subst h
      simp only [List.foldl]
      rw [s3 false false, s1 false true, s2 true true]
    · subst h
      simp only [List.foldl]
      rw [s3 false false, s2 false true, s1 true true]

def wG0 : String := "HEAD\n"

def wG1 : String := "\nglueA\n"

def wG2 : String := "\nglueB\n"

def wG3 : String := "\ntail"

def wB1 : String := "    pin-a v0"

def wB2 : String := "    pin-b v1"

def wB3 : String := "    pin-c v2"

theorem C7_witness :
    patchCore (classState false true false wB1.toList wB2.toList wB3.toList
        wG0.toList wG1.toList wG2.toList wG3.toList false false false) =
      classState false true false wB1.toList wB2.toList wB3.toList
        wG0.toList wG1.toList wG2.toList wG3.toList true true true ∧
    ∀ order ∈ [[SIG_CLIENT, SIG_SERVER, SIG_ISSUERS],
        [SIG_CLIENT, SIG_ISSUERS, SIG_SERVER],
        [SIG_SERVER, SIG_CLIENT, SIG_ISSUERS],
        [SIG_SERVER, SIG_ISSUERS, SIG_CLIENT],
        [SIG_ISSUERS, SIG_CLIENT, SIG_SERVER],
        [SIG_ISSUERS, SIG_SERVER, SIG_CLIENT]],
      order.foldl (fun acc sig => replaceSig sig acc)
        (classState false true false wB1.toList wB2.toList wB3.toList
          wG0.toList wG1.toList wG2.toList wG3.toList false false false) =
      classState false true false wB1.toList wB2.toList wB3.toList
        wG0.toList wG1.toList wG2.toList wG3.toList true true true :=
  C7_order_independent false true false wB1.toList wB2.toList wB3.toList
    wG0.toList wG1.toList wG2.toList wG3.toList (by decide)

end ApkMitm
